import Mathlib

/-
Verification of the go-crc repository (src/crc.go) against its
natural-language specification.

The Go code is shallowly embedded over Nat:

* values of the Go type parameter T (uint8/16/32/64) are Nats together
  with the bit width tw of T; wraparound is modelled by explicit % 2 ^ tw
  exactly where the Go code can overflow;
* bytes are Nats (< 256 where it matters, stated as hypotheses);
* the Go panic in tblUpd is modelled by Option.none;
* NewAlgo's error return is modelled by Except String.
-/

namespace GoCrc

/-- Loop body of the Go function reflect: at each iteration the source
shifts val right once, shifts the accumulator x left once and ors in the
new lowest bit of val.  The Nat argument counts the remaining iterations
(the Go loop runs for i = 1 .. numBits-1). -/
def reflectLoop (val x : Nat) : Nat → Nat
  | 0 => x
  | n + 1 => reflectLoop (val >>> 1) ((x <<< 1) ||| ((val >>> 1) &&& 1)) n

/-- Go func reflect[T UInt](val T, numBits int) T: x := val & 1, then
numBits-1 iterations of the loop above.  (For numBits = 0 the Go loop body
never runs and the function returns val & 1; Nat subtraction gives the
same value.) -/
def reflect (val numBits : Nat) : Nat :=
  reflectLoop val (val &&& 1) (numBits - 1)

/-- The Go package-level table reflectedBytes: entry 0 keeps the zero
value of the array, entries 1..255 are filled with reflect(i, 8) by the
module initializer.  Modelled as a function on Nat. -/
def reflectedBytes (b : Nat) : Nat :=
  if b = 0 then 0 else reflect b 8

/-- The Go struct algo[T]: tw is the bit width of the Go type parameter T
(8, 16, 32 or 64), the remaining fields are exactly the struct fields.
The 256-entry accelerator table is recovered by Algo.table below. -/
structure Algo where
  tw : Nat
  width : Nat
  refPoly : Nat
  refInit : Nat
  xorout : Nat
  refin : Bool
  refout : Bool
deriving Repr, DecidableEq, Inhabited

/-- One iteration of the loop inside algo.bbbUpd: if reg&1 != 0 then
reg = reg>>1 ^ refPoly else reg >>= 1. -/
def bbbStep (refPoly reg : Nat) : Nat :=
  if reg &&& 1 ≠ 0 then (reg >>> 1) ^^^ refPoly else reg >>> 1

/-- The for-loop of algo.bbbUpd, iterated bitLen times. -/
def bbbLoop (refPoly reg : Nat) : Nat → Nat
  | 0 => reg
  | n + 1 => bbbLoop refPoly (bbbStep refPoly reg) n

/-- Go method algo.bbbUpd(reg T, b byte, bitLen int): reflect b when
refin is false, mask to the low bitLen bits, xor into the register and
run bitLen iterations of the shift/xor loop. -/
def Algo.bbbUpd (a : Algo) (reg b bitLen : Nat) : Nat :=
  let b1 := if !a.refin then reflectedBytes b else b
  let b2 := b1 &&& ((1 <<< bitLen) - 1)
  bbbLoop a.refPoly (reg ^^^ b2) bitLen

/-- The accelerator table built in NewAlgo: table[0] stays the zero value
of the array, and for i = 1..255 the source sets
table[i] = a.bbbUpd(T(i), 0, 8) (register seeded with i, input byte 0). -/
def Algo.table (a : Algo) (i : Nat) : Nat :=
  if i = 0 then 0 else a.bbbUpd i 0 8

/-- The per-byte body of the loop in algo.tblUpd:
if !a.refin { b = reflectedBytes[b] }; reg = a.table[byte(reg)^b] ^ (reg >> 8).
byte(reg) is the Go conversion, i.e. reg % 256. -/
def Algo.tblStep (a : Algo) (reg b : Nat) : Nat :=
  let b1 := if !a.refin then reflectedBytes b else b
  a.table ((reg % 256) ^^^ b1) ^^^ (reg >>> 8)

/-- Go method algo.tblUpd(reg T, data []byte, bitLen int).  bitLen < 0
means whole-data processing; bitLen greater than the number of bits in
data panics (modelled as none); otherwise bitLen>>3 whole bytes go
through the table loop and the remaining bitLen&7 bits of the next byte
through bbbUpd. -/
def Algo.tblUpd (a : Algo) (reg : Nat) (data : List Nat) (bitLen : Int) :
    Option Nat :=
  if bitLen < 0 then
    some (data.foldl a.tblStep reg)
  else if bitLen > 8 * (data.length : Int) then
    none
  else
    let n : Nat := bitLen.toNat / 8
    let bitsLeft : Nat := bitLen.toNat % 8
    let reg2 := (data.take n).foldl a.tblStep reg
    if bitsLeft > 0 then some (a.bbbUpd reg2 (data.getD n 0) bitsLeft)
    else some reg2

/-- Go func checkParams[T UInt](width int, poly, init, xorout T) error.
T(1) << (width-1) and (T(1) << width) - 1 are computed with T's
wraparound, i.e. modulo 2 ^ tw (unsigned subtraction of 1 is addition
of 2 ^ tw - 1). -/
def checkParams (tw : Nat) (width : Int) (poly init xorout : Nat) :
    Except String Unit :=
  if width ≤ 0 ∨ (1 <<< (width - 1).toNat) % 2 ^ tw = 0 then
    Except.error
      "width must be greater than zero and less than or equal to the bit width of T"
  else
    let m := ((1 <<< width.toNat) % 2 ^ tw + (2 ^ tw - 1)) % 2 ^ tw
    if poly > m ∨ init > m ∨ xorout > m then
      Except.error "poly, init or xorout is outside of the range allowed by width"
    else Except.ok ()

/-- Go func NewAlgo[T UInt]: validate the parameters then build the algo
struct storing width, reflect(poly, width), reflect(init, width), xorout,
refin and refout (the stored 256-entry array is Algo.table). -/
def NewAlgo (tw : Nat) (width : Int) (poly init xorout : Nat)
    (refin refout : Bool) : Except String Algo :=
  match checkParams tw width poly init xorout with
  | Except.error e => Except.error e
  | Except.ok _ =>
    Except.ok
      { tw := tw, width := width.toNat, refPoly := reflect poly width.toNat,
        refInit := reflect init width.toNat, xorout := xorout,
        refin := refin, refout := refout }

/-- The Go struct crc[T]: a pointer to the shared algo and the mutable
register. -/
structure CRCState where
  a : Algo
  reg : Nat
deriving Repr, DecidableEq

/-- Go method algo.NewCRC: a fresh session whose register is the
reflected init value. -/
def Algo.NewCRC (a : Algo) : CRCState :=
  { a := a, reg := a.refInit }

/-- Go method crc.UpdateBits: c.reg = c.a.tblUpd(c.reg, data, bitLen).
A none result models the panic inside tblUpd, which unwinds before the
assignment to c.reg executes, so no session state with a modified
register exists. -/
def CRCState.UpdateBits (c : CRCState) (data : List Nat) (bitLen : Int) :
    Option CRCState :=
  (c.a.tblUpd c.reg data bitLen).map (fun r => { c with reg := r })

/-- Go method crc.Update: c.reg = c.a.tblUpd(c.reg, data, -1). -/
def CRCState.Update (c : CRCState) (data : List Nat) : Option CRCState :=
  (c.a.tblUpd c.reg data (-1)).map (fun r => { c with reg := r })

/-- Go method crc.Residue: the raw register if refout, else the register
reflected to width bits. -/
def CRCState.Residue (c : CRCState) : Nat :=
  if c.a.refout then c.reg else reflect c.reg c.a.width

/-- Go method crc.Final: Residue() ^ xorout. -/
def CRCState.Final (c : CRCState) : Nat :=
  c.Residue ^^^ c.a.xorout

/-- Go method algo.CalcBits: fresh session, UpdateBits, Final. -/
def Algo.CalcBits (a : Algo) (data : List Nat) (bitLen : Int) : Option Nat :=
  (a.NewCRC.UpdateBits data bitLen).map CRCState.Final

/-- Go method algo.Calc: CalcBits(data, -1). -/
def Algo.Calc (a : Algo) (data : List Nat) : Option Nat :=
  a.CalcBits data (-1)

/-- A Go method call v := c.Final() as a (value, receiver-after-call)
pair: the method body only reads fields, it assigns none, so the
receiver after the call is the receiver before it. -/
def CRCState.FinalOp (c : CRCState) : Nat × CRCState :=
  (c.Final, c)

/-- A Go method call v := c.Residue() as a (value, receiver-after-call)
pair; the method body assigns no field. -/
def CRCState.ResidueOp (c : CRCState) : Nat × CRCState :=
  (c.Residue, c)

/-- The CRC-5/USB preset of the source (width 5, poly 0x05, init 0x1f,
xorout 0x1f, refin, refout) instantiated at T = uint8, i.e. the Algo the
preset's mustNewPreset/NewAlgo call produces. -/
def CRC5USBalgo : Algo :=
  ((NewAlgo 8 5 0x05 0x1f 0x1f true true).toOption).getD default

/-- The CRC-3/GSM preset of the source (width 3, poly 0x3, init 0x0,
xorout 0x7, refin=false, refout=false) at T = uint8; a refin=false
engine used as a concrete test vehicle. -/
def CRC3GSMalgo : Algo :=
  ((NewAlgo 8 3 0x3 0x0 0x7 false false).toOption).getD default

/-- The byte that carries the remaining 8-k bits of the split byte b in
the position the engine consumes partial-byte bits from: for a refin
engine bbbUpd consumes the low bits of a partial byte, so the remaining
bits are b >>> k; for a non-refin engine bbbUpd consumes the high bits
(the mask is applied after input reflection), so the remaining bits are
supplied high-justified, (b <<< k) truncated to a byte. -/
def contByte (a : Algo) (b k : Nat) : Nat :=
  if a.refin then b >>> k else (b <<< k) % 256

/-! ### Bit-arithmetic helpers -/

/-- Xor is cancellative in the shape needed to normalize xor expressions. -/
theorem xor_left_comm (a b c : Nat) : a ^^^ (b ^^^ c) = b ^^^ (a ^^^ c) := by
  rw [← Nat.xor_assoc, Nat.xor_comm a b, Nat.xor_assoc]

/-- Left shift distributes over bitwise or. -/
theorem shiftLeft_or_distrib (a b n : Nat) :
    (a ||| b) <<< n = a <<< n ||| b <<< n := by
  apply Nat.eq_of_testBit_eq
  intro i
  simp only [Nat.testBit_shiftLeft, Nat.testBit_or]
  cases Decidable.em (n ≤ i) with
  | inl h => simp [h]
  | inr h => simp [h]

/-- Shifting left then right by the same amount is the identity. -/
theorem shiftLeft_shiftRight_self (x n : Nat) : (x <<< n) >>> n = x := by
  rw [Nat.shiftLeft_eq, Nat.shiftRight_eq_div_pow]
  exact Nat.mul_div_cancel x (Nat.pos_pow_of_pos n (by norm_num))

/-- A value shifted left by n is divisible by 2 ^ n. -/
theorem shiftLeft_mod_self (x n : Nat) : (x <<< n) % 2 ^ n = 0 := by
  simp [Nat.shiftLeft_eq, Nat.mul_mod_left]

/-- Any Nat is the xor of its low n bits and its remaining high bits. -/
theorem mod_xor_shiftRight (x n : Nat) :
    (x % 2 ^ n) ^^^ ((x >>> n) <<< n) = x := by
  apply Nat.eq_of_testBit_eq
  intro i
  simp only [Nat.testBit_xor, Nat.testBit_mod_two_pow, Nat.testBit_shiftLeft,
    Nat.testBit_shiftRight]
  cases Decidable.em (i < n) with
  | inl h =>
    have h2 : ¬ n ≤ i := by omega
    simp [h, h2]
  | inr h =>
    have h2 : n ≤ i := by omega
    have h3 : n + (i - n) = i := by omega
    simp [h, h2, h3]

/-- The low k+j bits of m split as (low k bits) xor (next j bits, shifted
up past the low k ones). -/
theorem mod_pow_decompose (m k j : Nat) :
    m % 2 ^ (k + j) = (m % 2 ^ k) ^^^ (((m >>> k) % 2 ^ j) <<< k) := by
  apply Nat.eq_of_testBit_eq
  intro i
  simp only [Nat.testBit_xor, Nat.testBit_mod_two_pow, Nat.testBit_shiftLeft,
    Nat.testBit_shiftRight]
  cases Decidable.em (i < k) with
  | inl h =>
    have h2 : ¬ k ≤ i := by omega
    have h3 : i < k + j := by omega
    simp [h, h2, h3]
  | inr h =>
    have h2 : k ≤ i := by omega
    have h3 : k + (i - k) = i := by omega
    have h4 : (i - k < j) ↔ (i < k + j) := by omega
    cases Decidable.em (i < k + j) with
    | inl h5 => simp [h, h2, h3, h5, h4.mpr h5]
    | inr h5 =>
      have h6 : ¬ (i - k < j) := by omega
      simp [h, h2, h3, h5, h6]

/-! ### The bit-by-bit loop: linearity and composition -/

/-- The conditional step is the linear map x ↦ (x >>> 1) ^^^ (x &&& 1) * P. -/
theorem bbbStep_eq_linear (P x : Nat) :
    bbbStep P x = (x >>> 1) ^^^ (x &&& 1) * P := by
  unfold bbbStep
  rcases Nat.mod_two_eq_zero_or_one x with h | h <;>
    simp [Nat.and_one_is_mod, h]

/-- The step commutes with xor of registers. -/
theorem bbbStep_xor (P x y : Nat) :
    bbbStep P (x ^^^ y) = bbbStep P x ^^^ bbbStep P y := by
  simp only [bbbStep_eq_linear]
  have hs : (x ^^^ y) >>> 1 = (x >>> 1) ^^^ (y >>> 1) := by
    simp only [Nat.shiftRight_one]
    exact Nat.xor_div_two
  have ha : (x ^^^ y) &&& 1 = (x &&& 1) ^^^ (y &&& 1) :=
    Nat.and_xor_distrib_right
  rw [hs, ha]
  simp only [Nat.and_one_is_mod]
  rcases Nat.mod_two_eq_zero_or_one x with hx | hx <;>
    rcases Nat.mod_two_eq_zero_or_one y with hy | hy
  · simp [hx, hy, Nat.xor_assoc, Nat.xor_comm, xor_left_comm]
  · simp [hx, hy, Nat.xor_assoc, Nat.xor_comm, xor_left_comm]
  · simp [hx, hy, Nat.xor_assoc, Nat.xor_comm, xor_left_comm]
  · simp only [hx, hy, Nat.xor_self, Nat.zero_mul, Nat.one_mul, Nat.xor_zero]
    apply Nat.eq_of_testBit_eq
    intro i
    simp only [Nat.testBit_xor]
    cases (x >>> 1).testBit i <;> cases (y >>> 1).testBit i <;>
      cases P.testBit i <;> rfl

/-- The loop commutes with xor of registers. -/
theorem bbbLoop_xor (P : Nat) (n : Nat) :
    ∀ x y, bbbLoop P (x ^^^ y) n = bbbLoop P x n ^^^ bbbLoop P y n := by
  induction n with
  | zero => intro x y; rfl
  | succ n ih =>
    intro x y
    show bbbLoop P (bbbStep P (x ^^^ y)) n = _
    rw [bbbStep_xor, ih]
    rfl

/-- The loop fixes the zero register. -/
theorem bbbLoop_zero (P n : Nat) : bbbLoop P 0 n = 0 := by
  induction n with
  | zero => rfl
  | succ n ih =>
    show bbbLoop P (bbbStep P 0) n = 0
    have : bbbStep P 0 = 0 := by simp [bbbStep]
    rw [this, ih]

/-- Iterating k + j steps is iterating k steps then j steps. -/
theorem bbbLoop_add (P : Nat) (k : Nat) :
    ∀ j x, bbbLoop P x (k + j) = bbbLoop P (bbbLoop P x k) j := by
  induction k with
  | zero => intro j x; rw [Nat.zero_add]; rfl
  | succ k ih =>
    intro j x
    have h : k + 1 + j = (k + j) + 1 := by omega
    rw [h]
    show bbbLoop P (bbbStep P x) (k + j) = _
    rw [ih j (bbbStep P x)]
    rfl

/-- On a register whose low n bits are clear, n steps of the loop are a
plain right shift by n. -/
theorem bbbLoop_of_mod_eq_zero (P : Nat) (n : Nat) :
    ∀ x, x % 2 ^ n = 0 → bbbLoop P x n = x >>> n := by
  induction n with
  | zero => intro x _; rfl
  | succ n ih =>
    intro x hx
    have h2 : x % 2 = 0 := by
      have : x % 2 = x % 2 ^ (n + 1) % 2 :=
        (Nat.mod_mod_of_dvd x (dvd_pow_self 2 (by omega))).symm
      rw [this, hx]
    have hstep : bbbStep P x = x >>> 1 := by
      simp [bbbStep, Nat.and_one_is_mod, h2]
    obtain ⟨t, ht⟩ := Nat.dvd_of_mod_eq_zero hx
    have hdiv : x >>> 1 = 2 ^ n * t := by
      rw [Nat.shiftRight_one, ht, Nat.pow_succ]
      rw [Nat.mul_comm (2 ^ n) 2, Nat.mul_assoc]
      exact Nat.mul_div_cancel_left _ (by omega)
    show bbbLoop P (bbbStep P x) n = _
    rw [hstep, ih (x >>> 1) (by rw [hdiv]; exact Nat.mul_mod_right _ _)]
    rw [← Nat.shiftRight_add, Nat.add_comm]


/-- Core split property of the reflected bit-serial CRC recurrence:
folding the low k+j bits of m in one go equals folding the low k bits,
then the next j bits. -/
theorem bbbLoop_split (P reg m k j : Nat) :
    bbbLoop P (reg ^^^ m % 2 ^ (k + j)) (k + j)
      = bbbLoop P (bbbLoop P (reg ^^^ m % 2 ^ k) k ^^^ (m >>> k) % 2 ^ j) j := by
  rw [mod_pow_decompose m k j, ← Nat.xor_assoc, bbbLoop_add P k j, bbbLoop_xor,
    bbbLoop_of_mod_eq_zero P k _ (shiftLeft_mod_self _ k),
    shiftLeft_shiftRight_self]

/-! ### Characterization of reflect -/

/-- Reversal of the low n bits of v, defined structurally: bit 0 of v
goes to position n-1, and so on. -/
def revBits (v : Nat) : Nat → Nat
  | 0 => 0
  | n + 1 => ((v &&& 1) <<< n) ||| revBits (v >>> 1) n

/-- The Go loop accumulates exactly the reversal of bits 1..m of val
below the shifted-up seed accumulator. -/
theorem reflectLoop_eq (m : Nat) :
    ∀ v x, reflectLoop v x m = (x <<< m) ||| revBits (v >>> 1) m := by
  induction m with
  | zero => intro v x; simp [reflectLoop, revBits]
  | succ m ih =>
    intro v x
    show reflectLoop (v >>> 1) ((x <<< 1) ||| ((v >>> 1) &&& 1)) m = _
    rw [ih]
    show _ = (x <<< (m + 1)) ||| (((v >>> 1) &&& 1) <<< m ||| revBits (v >>> 1 >>> 1) m)
    rw [shiftLeft_or_distrib, Nat.or_assoc, ← Nat.shiftLeft_add x 1 m,
      Nat.add_comm 1 m]

/-- For numBits ≥ 1 the Go reflect is exactly the reversal of the low
numBits bits. -/
theorem reflect_eq_revBits (v n : Nat) (h : 1 ≤ n) : reflect v n = revBits v n := by
  obtain ⟨m, rfl⟩ : ∃ m, n = m + 1 := ⟨n - 1, by omega⟩
  show reflectLoop v (v &&& 1) (m + 1 - 1) = _
  rw [Nat.add_sub_cancel, reflectLoop_eq]
  rfl

/-- Bit j of the reversal of the low n bits of v is bit n-1-j of v. -/
theorem testBit_revBits (n : Nat) :
    ∀ v j, (revBits v n).testBit j = (decide (j < n) && v.testBit (n - 1 - j)) := by
  induction n with
  | zero => intro v j; simp [revBits]
  | succ n ih =>
    intro v j
    show (((v &&& 1) <<< n) ||| revBits (v >>> 1) n).testBit j = _
    rw [Nat.testBit_or, Nat.testBit_shiftLeft, ih]
    rcases Nat.lt_trichotomy j n with hj | hj | hj
    · have h1 : ¬ n ≤ j := by omega
      have h2 : j < n + 1 := by omega
      have h3 : n - 1 - j + 1 = n + 1 - 1 - j := by omega
      rw [Nat.testBit_shiftRight, Nat.add_comm 1 (n - 1 - j), h3]
      simp only [h1, hj, h2, decide_True, decide_False, eq_self_iff_true,
        if_true, decide_eq_true_eq]
      simp [h1]
    · subst hj
      have h2 : ¬ j < j := lt_irrefl j
      have h3 : j < j + 1 := by omega
      have h4 : j + 1 - 1 - j = 0 := by omega
      have h5 : Nat.testBit (v &&& 1) 0 = Nat.testBit v 0 := by
        rw [Nat.testBit_and]
        have : Nat.testBit 1 0 = true := rfl
        rw [this, Bool.and_true]
      simp only [Nat.sub_self, le_refl, decide_True, Bool.true_and, h2,
        decide_False, Bool.false_and, Bool.or_false, h3, h4, h5]
    · have h1 : n ≤ j := by omega
      have h2 : ¬ j < n := by omega
      have h3 : ¬ j < n + 1 := by omega
      have h4 : (v &&& 1).testBit (j - n) = false := by
        apply Nat.testBit_lt_two_pow
        have hle : v &&& 1 ≤ 1 := Nat.and_le_right
        have : 1 < 2 ^ (j - n) := by
          have hjn : 1 ≤ j - n := by omega
          calc 1 < 2 ^ 1 := by norm_num
          _ ≤ 2 ^ (j - n) := Nat.pow_le_pow_right (by norm_num) hjn
        omega
      simp only [h1, h2, h3, h4, decide_True, decide_False, Bool.true_and,
        Bool.false_and, Bool.or_false]

/-- The reversal of n bits is an n-bit value. -/
theorem revBits_lt (n v : Nat) : revBits v n < 2 ^ n := by
  apply Nat.lt_pow_two_of_testBit
  intro i hi
  rw [testBit_revBits]
  have : ¬ i < n := by omega
  simp [this]

/-- Bit j of reflect v n (n ≥ 1) is bit n-1-j of v, and bits at or above
n are clear. -/
theorem testBit_reflect (v n j : Nat) (h : 1 ≤ n) :
    (reflect v n).testBit j = (decide (j < n) && v.testBit (n - 1 - j)) := by
  rw [reflect_eq_revBits v n h, testBit_revBits]

/-- reflect produces an n-bit value (n ≥ 1). -/
theorem reflect_lt (v n : Nat) (h : 1 ≤ n) : reflect v n < 2 ^ n := by
  rw [reflect_eq_revBits v n h]; exact revBits_lt n v

/-- The package-level byte table agrees with reflect(b, 8) everywhere
(entry 0 is the array's zero value, and reflect 0 8 = 0). -/
theorem reflectedBytes_eq (b : Nat) : reflectedBytes b = reflect b 8 := by
  unfold reflectedBytes
  by_cases hb : b = 0
  · subst hb; rfl
  · simp [hb]

/-- Reflecting a byte whose low 8-k bits moved to the top equals the
reflected byte shifted right by k: high-justified remaining bits reflect
to low-justified remaining reflected bits. -/
theorem reflect_shiftLeft_mod (b k : Nat) (hk : k ≤ 8) :
    reflect ((b <<< k) % 256) 8 = reflect b 8 >>> k := by
  have h256 : (256 : Nat) = 2 ^ 8 := by norm_num
  apply Nat.eq_of_testBit_eq
  intro j
  rw [Nat.testBit_shiftRight, testBit_reflect _ 8 j (by norm_num),
    testBit_reflect _ 8 (k + j) (by norm_num), h256, Nat.testBit_mod_two_pow,
    Nat.testBit_shiftLeft]
  by_cases h1 : j < 8
  · by_cases h2 : k ≤ 8 - 1 - j
    · have h3 : 8 - 1 - j < 8 := by omega
      have h4 : k + j < 8 := by omega
      have h5 : 8 - 1 - j - k = 8 - 1 - (k + j) := by omega
      simp [h1, h2, h3, h4, h5]
    · have h4 : ¬ (k + j < 8) := by omega
      simp [h1, h2, h4]
  · have h4 : ¬ (k + j < 8) := by omega
    simp [h1, h4]

/-! ### The table-driven update agrees with the bit-by-bit update -/

/-- Closed form of bbbUpd: run bitLen loop steps on the register xored
with the low bitLen bits of the (refin-dependently reflected) byte. -/
theorem bbbUpd_eq_loop (a : Algo) (reg b n : Nat) :
    a.bbbUpd reg b n
      = bbbLoop a.refPoly
          (reg ^^^ (if a.refin then b else reflect b 8) % 2 ^ n) n := by
  unfold Algo.bbbUpd
  have hmask : (1 <<< n) - 1 = 2 ^ n - 1 := by
    rw [Nat.shiftLeft_eq, Nat.one_mul]
  rw [hmask]
  cases hri : a.refin <;>
    simp [hri, reflectedBytes_eq, Nat.and_pow_two_sub_one_eq_mod]

/-- Every entry of the accelerator table is 8 plain loop steps on the
index (no input reflection is involved: the stored entry seeds the
register with i and feeds byte 0). -/
theorem table_eq_loop (a : Algo) (i : Nat) :
    a.table i = bbbLoop a.refPoly i 8 := by
  unfold Algo.table
  by_cases hi : i = 0
  · subst hi
    simp [bbbLoop_zero]
  · rw [if_neg hi, bbbUpd_eq_loop]
    have h0 : (if a.refin then 0 else reflect 0 8) = 0 := by
      cases a.refin <;> rfl
    rw [h0]
    simp

/-- One step of the table-driven loop is the bit-by-bit update on the
full 8 bits of the byte: the classical table-acceleration identity. -/
theorem tblStep_eq_bbbUpd (a : Algo) (reg b : Nat) (hb : b < 256) :
    a.tblStep reg b = a.bbbUpd reg b 8 := by
  have h256 : (256 : Nat) = 2 ^ 8 := by norm_num
  rw [bbbUpd_eq_loop]
  have hb1 : (if !a.refin then reflectedBytes b else b)
      = (if a.refin then b else reflect b 8) := by
    cases a.refin <;> simp [reflectedBytes_eq]
  show a.table ((reg % 256) ^^^ (if !a.refin then reflectedBytes b else b))
      ^^^ (reg >>> 8) = _
  rw [hb1]
  set b1 := if a.refin then b else reflect b 8 with hb1def
  have hb1lt : b1 < 256 := by
    rw [hb1def]
    cases a.refin with
    | false => simpa using reflect_lt b 8 (by norm_num)
    | true => simpa using hb
  have hmod : b1 % 2 ^ 8 = b1 := Nat.mod_eq_of_lt (by omega)
  rw [hmod]
  have hac : ∀ x y z : Nat, (x ^^^ z) ^^^ y = (x ^^^ y) ^^^ z := by
    intro x y z
    rw [Nat.xor_assoc, Nat.xor_comm z y, ← Nat.xor_assoc]
  have hgoal : reg ^^^ b1 = ((reg % 256) ^^^ b1) ^^^ ((reg >>> 8) <<< 8) := by
    conv_lhs => rw [← mod_xor_shiftRight reg 8]
    rw [← h256]
    exact hac (reg % 256) b1 ((reg >>> 8) <<< 8)
  rw [hgoal, bbbLoop_xor, bbbLoop_of_mod_eq_zero _ 8 _ (shiftLeft_mod_self _ 8),
    shiftLeft_shiftRight_self, table_eq_loop]

/-- Splitting one byte at bit k: feeding the low/leading k bits and then
the remaining 8-k bits (packed as contByte) equals feeding the byte
whole. -/
theorem bbbUpd_split (a : Algo) (reg b k : Nat) (hk1 : 1 ≤ k) (hk7 : k ≤ 7) :
    a.bbbUpd (a.bbbUpd reg b k) (contByte a b k) (8 - k) = a.bbbUpd reg b 8 := by
  have h8 : k + (8 - k) = 8 := by omega
  have hcont : (if a.refin then contByte a b k else reflect (contByte a b k) 8)
      = (if a.refin then b else reflect b 8) >>> k := by
    unfold contByte
    cases a.refin with
    | false => simpa using reflect_shiftLeft_mod b k (by omega)
    | true => simp
  have hsplit := bbbLoop_split a.refPoly reg
    (if a.refin then b else reflect b 8) k (8 - k)
  rw [h8] at hsplit
  rw [bbbUpd_eq_loop, bbbUpd_eq_loop, bbbUpd_eq_loop, hcont]
  exact hsplit.symm

/-! ### Evaluating tblUpd -/

/-- tblUpd with bitLen = -1 processes every byte through the table loop. -/
theorem tblUpd_neg_one (a : Algo) (reg : Nat) (data : List Nat) :
    a.tblUpd reg data (-1) = some (data.foldl a.tblStep reg) := by
  unfold Algo.tblUpd
  norm_num

/-- tblUpd with a byte-aligned non-negative bit length 8n processes the
first n bytes through the table loop. -/
theorem tblUpd_aligned (a : Algo) (reg : Nat) (data : List Nat) (n : Nat)
    (hn : n ≤ data.length) :
    a.tblUpd reg data ((8 * n : Nat) : Int)
      = some ((data.take n).foldl a.tblStep reg) := by
  unfold Algo.tblUpd
  have h1 : ¬ ((8 * n : Nat) : Int) < 0 := by push_cast; omega
  have h2 : ¬ ((8 * n : Nat) : Int) > 8 * (data.length : Int) := by
    push_cast
    omega
  rw [if_neg h1, if_neg h2]
  have h3 : ((8 * n : Nat) : Int).toNat = 8 * n := Int.toNat_ofNat _
  simp only [h3]
  have h4 : 8 * n / 8 = n := by omega
  have h5 : 8 * n % 8 = 0 := by omega
  simp [h4, h5]

/-- tblUpd with bit length 8n + r (1 ≤ r ≤ 7) processes n bytes through
the table loop and the next byte's r bits through bbbUpd. -/
theorem tblUpd_partial (a : Algo) (reg : Nat) (data : List Nat) (n r : Nat)
    (hr1 : 1 ≤ r) (hr7 : r ≤ 7) (hlen : 8 * n + r ≤ 8 * data.length) :
    a.tblUpd reg data ((8 * n + r : Nat) : Int)
      = some (a.bbbUpd ((data.take n).foldl a.tblStep reg) (data.getD n 0) r) := by
  unfold Algo.tblUpd
  have h1 : ¬ ((8 * n + r : Nat) : Int) < 0 := by push_cast; omega
  have h2 : ¬ ((8 * n + r : Nat) : Int) > 8 * (data.length : Int) := by
    push_cast
    omega
  rw [if_neg h1, if_neg h2]
  have h3 : ((8 * n + r : Nat) : Int).toNat = 8 * n + r := Int.toNat_ofNat _
  simp only [h3]
  have h4 : (8 * n + r) / 8 = n := by omega
  have h5 : (8 * n + r) % 8 = r := by omega
  simp [h4, h5, hr1, Nat.lt_of_lt_of_le (by omega : 0 < r) (le_refl r)]

/-- Taking exactly the length of the left part of an append returns the
left part. -/
theorem take_append_self (l r : List Nat) : (l ++ r).take l.length = l := by
  induction l with
  | nil => rfl
  | cons x l ih => simp [ih]

/-- Indexing an append at the length of the left part returns the head
of the right part. -/
theorem getD_append_self (l : List Nat) (b : Nat) (r : List Nat) (d : Nat) :
    (l ++ b :: r).getD l.length d = b := by
  induction l with
  | nil => rfl
  | cons x l ih => simpa using ih

/-! ### Characterizing parameter validation -/

/-- A power of two reduces to zero modulo a larger power of two exactly
when its exponent is at least the modulus exponent. -/
theorem two_pow_mod_two_pow_eq_zero_iff (a tw : Nat) :
    2 ^ a % 2 ^ tw = 0 ↔ tw ≤ a := by
  constructor
  · intro h
    have hdvd : 2 ^ tw ∣ 2 ^ a := Nat.dvd_of_mod_eq_zero h
    have hle : 2 ^ tw ≤ 2 ^ a :=
      Nat.le_of_dvd (Nat.pos_pow_of_pos a (by norm_num)) hdvd
    exact (Nat.pow_le_pow_iff_right (by norm_num)).mp hle
  · intro h
    obtain ⟨d, hd⟩ : ∃ d, a = tw + d := ⟨a - tw, by omega⟩
    subst hd
    rw [Nat.pow_add]
    exact Nat.mul_mod_right _ _

/-- checkParams succeeds exactly when 0 < width ≤ tw and poly, init,
xorout all fit in width bits. -/
theorem checkParams_ok_iff (tw : Nat) (width : Int) (poly init xorout : Nat) :
    checkParams tw width poly init xorout = Except.ok () ↔
      (0 < width ∧ width ≤ (tw : Int) ∧ poly < 2 ^ width.toNat ∧
       init < 2 ^ width.toNat ∧ xorout < 2 ^ width.toNat) := by
  unfold checkParams
  have hpow : ∀ m : Nat, (1 : Nat) <<< m = 2 ^ m := by
    intro m
    rw [Nat.shiftLeft_eq, Nat.one_mul]
  by_cases h1 : width ≤ 0 ∨ (1 <<< (width - 1).toNat) % 2 ^ tw = 0
  · rw [if_pos h1]
    constructor
    · intro h
      exact absurd h (by simp)
    · rintro ⟨hw, hle, -⟩
      exfalso
      rcases h1 with h1 | h1
      · omega
      · rw [hpow, two_pow_mod_two_pow_eq_zero_iff] at h1
        omega
  · rw [if_neg h1]
    push_neg at h1
    obtain ⟨hw, hmod⟩ := h1
    rw [hpow] at hmod
    have hmod2 : ¬ tw ≤ (width - 1).toNat := fun hc =>
      hmod ((two_pow_mod_two_pow_eq_zero_iff _ _).mpr hc)
    have hwle : width.toNat ≤ tw := by omega
    have hwpos : 0 < width := by omega
    have h2w : 0 < 2 ^ width.toNat := Nat.pos_pow_of_pos _ (by norm_num)
    have h2tw : 0 < 2 ^ tw := Nat.pos_pow_of_pos _ (by norm_num)
    have hm : ((1 <<< width.toNat) % 2 ^ tw + (2 ^ tw - 1)) % 2 ^ tw
        = 2 ^ width.toNat - 1 := by
      rw [hpow]
      by_cases he : width.toNat = tw
      · rw [he, Nat.mod_self, Nat.zero_add]
        exact Nat.mod_eq_of_lt (by omega)
      · have hlt : 2 ^ width.toNat < 2 ^ tw :=
          Nat.pow_lt_pow_right (by norm_num) (by omega)
        rw [Nat.mod_eq_of_lt hlt]
        have hsum : 2 ^ width.toNat + (2 ^ tw - 1)
            = 2 ^ tw + (2 ^ width.toNat - 1) := by omega
        rw [hsum, Nat.add_mod_left]
        exact Nat.mod_eq_of_lt (by omega)
    simp only [hm]
    by_cases h2 : poly > 2 ^ width.toNat - 1 ∨ init > 2 ^ width.toNat - 1 ∨
        xorout > 2 ^ width.toNat - 1
    · rw [if_pos h2]
      constructor
      · intro h
        exact absurd h (by simp)
      · rintro ⟨-, -, hp, hi, hx⟩
        omega
    · rw [if_neg h2]
      push_neg at h2
      constructor
      · intro _
        refine ⟨hwpos, by omega, by omega, by omega, by omega⟩
      · intro _
        rfl

/-- NewAlgo succeeds exactly when checkParams does. -/
theorem NewAlgo_isSome_iff (tw : Nat) (width : Int) (poly init xorout : Nat)
    (refin refout : Bool) :
    (NewAlgo tw width poly init xorout refin refout).toOption.isSome = true ↔
      checkParams tw width poly init xorout = Except.ok () := by
  unfold NewAlgo
  cases hcp : checkParams tw width poly init xorout with
  | error e =>
    simp [Except.toOption, hcp]
  | ok u =>
    cases u
    simp [Except.toOption, hcp]

/-- tblUpd aborts only on a non-negative bitLen exceeding the bit count
of the data; in particular no abort depends on the algorithm parameters. -/
theorem tblUpd_none_iff (a : Algo) (reg : Nat) (data : List Nat) (bitLen : Int) :
    a.tblUpd reg data bitLen = none ↔
      (0 ≤ bitLen ∧ 8 * (data.length : Int) < bitLen) := by
  unfold Algo.tblUpd
  by_cases h1 : bitLen < 0
  · rw [if_pos h1]
    simp
    omega
  · rw [if_neg h1]
    by_cases h2 : bitLen > 8 * (data.length : Int)
    · rw [if_pos h2]
      simp
      omega
    · rw [if_neg h2]
      by_cases h3 : bitLen.toNat % 8 > 0 <;> simp [h3] <;> omega

/-- Register-level form of the bit-boundary split: processing the prefix
bytes, then k bits of b, then the remaining 8-k bits, then the rest,
equals the byte-aligned fold over the whole input. -/
theorem tbl_split_regs (a : Algo) (reg : Nat) (pre rest : List Nat) (b k : Nat)
    (hb : b < 256) (hk1 : 1 ≤ k) (hk7 : k ≤ 7) :
    rest.foldl a.tblStep
        (a.bbbUpd (a.bbbUpd (pre.foldl a.tblStep reg) b k) (contByte a b k) (8 - k))
      = (pre ++ b :: rest).foldl a.tblStep reg := by
  rw [List.foldl_append, List.foldl_cons, bbbUpd_split a _ b k hk1 hk7,
    ← tblStep_eq_bbbUpd a _ b hb]

/-! ### The claims -/

/-- C1: for every engine and every input split at any bit boundary,
updating a session with N whole bytes plus k bits (1..7) of a following
byte, then supplying the remaining 8-k bits of that byte (contByte packs
them where the engine consumes partial-byte bits) followed by the rest
of the data, yields the same final() as supplying the whole data
byte-aligned in a single update; in particular for CRC-5/USB over the
ASCII bytes of the string of digits 1-9 both the one-shot calc and the
split after 4 bytes + 2 bits give 0x19. -/
theorem c1_bit_boundary_split (a : Algo) (reg : Nat) (pre rest : List Nat)
    (b k : Nat) (hb : b < 256) (hk1 : 1 ≤ k) (hk7 : k ≤ 7) :
    ((((⟨a, reg⟩ : CRCState).UpdateBits (pre ++ [b])
          ((8 * pre.length + k : Nat) : Int)).bind
        fun c1 => ((c1.UpdateBits [contByte a b k] ((8 - k : Nat) : Int)).bind
        fun c2 => (c2.Update rest).map CRCState.Final))
        = ((⟨a, reg⟩ : CRCState).Update (pre ++ b :: rest)).map CRCState.Final)
    ∧ CRC5USBalgo.Calc [49, 50, 51, 52, 53, 54, 55, 56, 57] = some 0x19
    ∧ (((CRC5USBalgo.NewCRC.UpdateBits [49, 50, 51, 52, 53] 34).bind
        fun c1 => ((c1.UpdateBits [13] 6).bind
        fun c2 => (c2.Update [54, 55, 56, 57]).map CRCState.Final))
        = some 0x19) := by
  refine ⟨?_, by decide, by decide⟩
  have hlen1 : 8 * pre.length + k ≤ 8 * (pre ++ [b]).length := by
    rw [List.length_append]
    simp
    omega
  have h1 := tblUpd_partial a reg (pre ++ [b]) pre.length k hk1 hk7 hlen1
  rw [take_append_self, getD_append_self] at h1
  have h2 := tblUpd_partial a (a.bbbUpd (pre.foldl a.tblStep reg) b k)
      [contByte a b k] 0 (8 - k) (by omega) (by omega) (by simp)
  simp only [Nat.mul_zero, Nat.zero_add, List.take_zero, List.foldl_nil,
    List.getD_cons_zero] at h2
  simp only [CRCState.UpdateBits, CRCState.Update, h1, h2, tblUpd_neg_one,
    Option.map_some', Option.some_bind]
  rw [tbl_split_regs a reg pre rest b k hb hk1 hk7]

/-- C1 witness: the general split equality instantiated at the CRC-5/USB
engine, four prefix bytes of the digit string, byte 53 split after two
bits, with all hypotheses discharged on concrete values. -/
theorem c1_bit_boundary_split_witness :
    ((53 : Nat) < 256 ∧ 1 ≤ 2 ∧ 2 ≤ 7) ∧
    ((((⟨CRC5USBalgo, 31⟩ : CRCState).UpdateBits [49, 50, 51, 52, 53]
          ((8 * [49, 50, 51, 52].length + 2 : Nat) : Int)).bind
        fun c1 => ((c1.UpdateBits [contByte CRC5USBalgo 53 2] ((8 - 2 : Nat) : Int)).bind
        fun c2 => (c2.Update [54, 55, 56, 57]).map CRCState.Final))
        = ((⟨CRC5USBalgo, 31⟩ : CRCState).Update
            ([49, 50, 51, 52] ++ 53 :: [54, 55, 56, 57])).map CRCState.Final) := by
  constructor
  · decide
  · exact (c1_bit_boundary_split CRC5USBalgo 31 [49, 50, 51, 52]
      [54, 55, 56, 57] 53 2 (by decide) (by decide) (by decide)).1

/-- C2: chunked updates concatenate: Update(A) then Update(B) from any
session state gives the same final() as Update(A ++ B) from the same
state; in particular a fresh session behaves like a fresh session fed
the concatenation. -/
theorem c2_update_concat (a : Algo) (reg : Nat) (A B : List Nat) :
    ((((⟨a, reg⟩ : CRCState).Update A).bind
        fun c1 => (c1.Update B).map CRCState.Final)
      = ((⟨a, reg⟩ : CRCState).Update (A ++ B)).map CRCState.Final)
    ∧ (((a.NewCRC.Update A).bind fun c1 => (c1.Update B).map CRCState.Final)
      = (a.NewCRC.Update (A ++ B)).map CRCState.Final) := by
  constructor
  · simp [CRCState.Update, tblUpd_neg_one, List.foldl_append]
  · simp [CRCState.Update, tblUpd_neg_one, List.foldl_append, Algo.NewCRC]

/-- C3 counterexample: for the validly constructed CRC-3/GSM engine
(refin = false) the table entry at index 3 is 7, while 8 iterations of
bbbUpdate seeded with register 0 and input byte 3 — which reflects the
input byte because refin is false — give 5; so the claim fails as
stated. -/
theorem c3_table_counterexample :
    (NewAlgo 8 3 0x3 0x0 0x7 false false).toOption = some CRC3GSMalgo ∧
    CRC3GSMalgo.table 3 = 7 ∧ CRC3GSMalgo.bbbUpd 0 3 8 = 5 ∧
    ¬ CRC3GSMalgo.table 3 = CRC3GSMalgo.bbbUpd 0 3 8 := by
  decide

/-- C3 amended: for every engine, table[0] = 0 and table[i] equals 8
iterations of the bit-by-bit shift/xor recurrence seeded with register
value i — the input byte is not run through the refin-dependent input
reflection (the source seeds the register with i and feeds byte 0); the
claimed form bbbUpdate(0, i, 8) agrees exactly when refin is true. -/
theorem c3_table_amended (a : Algo) (i : Nat) (hi : i < 256) :
    a.table 0 = 0 ∧ a.table i = bbbLoop a.refPoly i 8 ∧
    (a.refin = true → a.table i = a.bbbUpd 0 i 8) := by
  refine ⟨rfl, table_eq_loop a i, ?_⟩
  intro hri
  rw [table_eq_loop, bbbUpd_eq_loop]
  have h256 : i % 256 = i := Nat.mod_eq_of_lt hi
  simp [hri, h256]

/-- C3 amended witness: the amended table equations at the CRC-5/USB
engine and index 7. -/
theorem c3_table_amended_witness :
    ((7 : Nat) < 256) ∧
    (CRC5USBalgo.table 0 = 0 ∧
     CRC5USBalgo.table 7 = bbbLoop CRC5USBalgo.refPoly 7 8 ∧
     (CRC5USBalgo.refin = true → CRC5USBalgo.table 7 = CRC5USBalgo.bbbUpd 0 7 8)) :=
  ⟨by decide, c3_table_amended CRC5USBalgo 7 (by decide)⟩

/-- C4 counterexample: on the validly constructed refin = false
CRC-3/GSM engine, the bytes 0x00 and 0x80 agree on their low 1 bit yet
bbbUpdate(0, 0x00, 1) = 0 differs from bbbUpdate(0, 0x80, 1) = 6: the
high bits of the supplied byte do affect the result when refin is
false, because the bitCount mask is applied after input reflection. -/
theorem c4_highbits_counterexample :
    (NewAlgo 8 3 0x3 0x0 0x7 false false).toOption = some CRC3GSMalgo ∧
    (0 : Nat) % 2 ^ 1 = 128 % 2 ^ 1 ∧
    CRC3GSMalgo.bbbUpd 0 0 1 = 0 ∧ CRC3GSMalgo.bbbUpd 0 128 1 = 6 ∧
    ¬ CRC3GSMalgo.bbbUpd 0 0 1 = CRC3GSMalgo.bbbUpd 0 128 1 := by
  decide

/-- C4 amended: bbbUpdate ignores the bits of the supplied byte outside
the consumed bitCount ones, but which bits are consumed depends on
refin: with refin = true bytes agreeing on their low bitCount bits give
equal results (the high 8 - bitCount bits never matter); with refin =
false the mask is applied after input reflection, so bytes (< 256)
agreeing on their high bitCount bits give equal results (the low
8 - bitCount bits never matter). -/
theorem c4_unused_bits_amended (a : Algo) (reg b1 b2 k : Nat)
    (hk1 : 1 ≤ k) (hk8 : k ≤ 8) :
    (a.refin = true → b1 % 2 ^ k = b2 % 2 ^ k →
      a.bbbUpd reg b1 k = a.bbbUpd reg b2 k) ∧
    (a.refin = false → b1 >>> (8 - k) = b2 >>> (8 - k) →
      a.bbbUpd reg b1 k = a.bbbUpd reg b2 k) := by
  constructor
  · intro hri hmod
    rw [bbbUpd_eq_loop, bbbUpd_eq_loop]
    simp only [hri, if_true]
    rw [hmod]
  · intro hri hhigh
    rw [bbbUpd_eq_loop, bbbUpd_eq_loop]
    simp only [hri, Bool.false_eq_true, if_false]
    have hbit : ∀ j, j < k → b1.testBit (8 - 1 - j) = b2.testBit (8 - 1 - j) := by
      intro j hj
      have hsplit : 8 - 1 - j = (8 - k) + (k - 1 - j) := by omega
      rw [hsplit, ← Nat.testBit_shiftRight, ← Nat.testBit_shiftRight, hhigh]
    have hrefl : reflect b1 8 % 2 ^ k = reflect b2 8 % 2 ^ k := by
      apply Nat.eq_of_testBit_eq
      intro j
      rw [Nat.testBit_mod_two_pow, Nat.testBit_mod_two_pow,
        testBit_reflect _ 8 j (by norm_num), testBit_reflect _ 8 j (by norm_num)]
      by_cases hj : j < k
      · rw [hbit j hj]
      · simp [hj]
    rw [hrefl]

/-- C4 amended witness: the refin = true direction at the CRC-5/USB
engine on bytes 0x35 and 0x01, which agree on their low 2 bits. -/
theorem c4_unused_bits_amended_witness :
    (1 ≤ 2 ∧ 2 ≤ 8 ∧ CRC5USBalgo.refin = true ∧
      (0x35 : Nat) % 2 ^ 2 = 0x01 % 2 ^ 2) ∧
    CRC5USBalgo.bbbUpd 0 0x35 2 = CRC5USBalgo.bbbUpd 0 0x01 2 :=
  ⟨by decide,
    (c4_unused_bits_amended CRC5USBalgo 0 0x35 0x01 2 (by decide) (by decide)).1
      (by decide) (by decide)⟩

/-- C5: engine construction returns an InvalidParameter error (not a
panic) exactly when width ≤ 0, width exceeds the bit width tw of T, or
poly/init/xorout exceed 2 ^ width - 1; and on a successfully built
engine a later update can only abort because a non-negative bitLen
exceeds the data's bit count — never because of the parameters. -/
theorem c5_construction_validation (tw : Nat) (width : Int)
    (poly init xorout : Nat) (refin refout : Bool) :
    ((NewAlgo tw width poly init xorout refin refout).toOption.isSome = true ↔
      (0 < width ∧ width ≤ (tw : Int) ∧ poly ≤ 2 ^ width.toNat - 1 ∧
       init ≤ 2 ^ width.toNat - 1 ∧ xorout ≤ 2 ^ width.toNat - 1)) ∧
    (∀ a, NewAlgo tw width poly init xorout refin refout = Except.ok a →
      ∀ reg data bitLen, a.tblUpd reg data bitLen = none →
        0 ≤ bitLen ∧ 8 * (data.length : Int) < bitLen) := by
  constructor
  · rw [NewAlgo_isSome_iff, checkParams_ok_iff]
    have h2w : 0 < 2 ^ width.toNat := Nat.pos_pow_of_pos _ (by norm_num)
    constructor <;>
      (rintro ⟨g1, g2, g3, g4, g5⟩; exact ⟨g1, g2, by omega, by omega, by omega⟩)
  · intro a _ reg data bitLen hnone
    exact (tblUpd_none_iff a reg data bitLen).mp hnone

/-- C5 witness: valid CRC-5/USB parameters construct, width 0 does not,
and an overrunning bitLen is the reason for the one possible abort. -/
theorem c5_construction_validation_witness :
    (NewAlgo 8 5 5 31 31 true true).toOption.isSome = true ∧
    ¬ (0 < (0 : Int)) := by
  constructor
  · exact (c5_construction_validation 8 5 5 31 31 true true).1.mpr
      (by constructor <;> decide)
  · decide

/-- C6: a non-negative bitLength exceeding 8*len(data) makes UpdateBits
(and CalcBits) abort with the Go panic, modelled as none: no successor
session state exists, so in particular the register is not silently
truncated or wrapped — in the Go code the panic fires before the
assignment to the session register, leaving it unchanged. -/
theorem c6_bitlen_overrun_aborts (c : CRCState) (data : List Nat)
    (bitLen : Int) (h0 : 0 ≤ bitLen) (hover : 8 * (data.length : Int) < bitLen) :
    c.UpdateBits data bitLen = none ∧ c.a.CalcBits data bitLen = none := by
  have hn : ∀ r, c.a.tblUpd r data bitLen = none := fun r =>
    (tblUpd_none_iff c.a r data bitLen).mpr ⟨h0, hover⟩
  constructor
  · simp [CRCState.UpdateBits, hn]
  · simp [Algo.CalcBits, CRCState.UpdateBits, Algo.NewCRC, hn]

/-- C6 witness: one byte of data with bitLength 9 aborts both entry
points on the CRC-5/USB engine. -/
theorem c6_bitlen_overrun_aborts_witness :
    ((0 : Int) ≤ 9 ∧ 8 * (([49] : List Nat).length : Int) < 9) ∧
    (CRC5USBalgo.NewCRC.UpdateBits [49] 9 = none ∧
      CRC5USBalgo.CalcBits [49] 9 = none) :=
  ⟨by decide, c6_bitlen_overrun_aborts CRC5USBalgo.NewCRC [49] 9
    (by decide) (by decide)⟩

/-- C7: residue() returns the raw register when refout is true and the
width-bit reflection of the register otherwise, and final() is
residue() xor xorout. -/
theorem c7_residue_final (c : CRCState) :
    c.Residue = (if c.a.refout then c.reg else reflect c.reg c.a.width) ∧
    c.Final = c.Residue ^^^ c.a.xorout :=
  ⟨rfl, rfl⟩

/-- C8: calc(data) = calcBits(data, -1) = calcBits(data, 8*len(data))
for every engine and every data. -/
theorem c8_calc_calcbits (a : Algo) (data : List Nat) :
    a.Calc data = a.CalcBits data (-1) ∧
    a.CalcBits data (-1) = a.CalcBits data ((8 * data.length : Nat) : Int) := by
  refine ⟨rfl, ?_⟩
  simp only [Algo.CalcBits, CRCState.UpdateBits, Algo.NewCRC]
  rw [tblUpd_neg_one, tblUpd_aligned a a.refInit data data.length (le_refl _),
    List.take_length]

/-- C9: for 1 ≤ numBits (≤ 64), reflect(value, numBits) has in bit j the
bit numBits-1-j of value for j < numBits and zero above numBits, and
the precomputed byte table satisfies reflectedBytes[b] = reflect(b, 8). -/
theorem c9_reflect_spec (v numBits j b : Nat) (h1 : 1 ≤ numBits)
    (_h64 : numBits ≤ 64) :
    ((reflect v numBits).testBit j
        = (decide (j < numBits) && v.testBit (numBits - 1 - j))) ∧
    reflect v numBits < 2 ^ numBits ∧
    reflectedBytes b = reflect b 8 :=
  ⟨testBit_reflect v numBits j h1, reflect_lt v numBits h1, reflectedBytes_eq b⟩

/-- C9 witness: the reflect characterization at value 0xb5, numBits 8,
bit 0, byte 3. -/
theorem c9_reflect_spec_witness :
    (1 ≤ 8 ∧ (8 : Nat) ≤ 64) ∧
    (((reflect 0xb5 8).testBit 0 = (decide (0 < 8) && Nat.testBit 0xb5 7)) ∧
     reflect 0xb5 8 < 2 ^ 8 ∧ reflectedBytes 3 = reflect 3 8) :=
  ⟨by decide, c9_reflect_spec 0xb5 8 0 3 (by decide) (by decide)⟩

/-- C10: Final and Residue are pure queries — the receiver after the
call is the receiver before it, so repeated and interleaved queries with
no intervening update return the same values — and neither Update nor
UpdateBits modifies any field of the shared engine (width, refPoly,
refInit, xorout, refin, refout, and hence the derived table). -/
theorem c10_query_purity_engine_frame (c : CRCState) (data : List Nat)
    (bitLen : Int) :
    c.FinalOp.2 = c ∧ c.ResidueOp.2 = c ∧
    (c.ResidueOp.2.FinalOp.1 = c.FinalOp.1 ∧
     c.FinalOp.2.ResidueOp.1 = c.ResidueOp.1) ∧
    (∀ c', c.Update data = some c' → c'.a = c.a) ∧
    (∀ c', c.UpdateBits data bitLen = some c' → c'.a = c.a) := by
  refine ⟨rfl, rfl, ⟨rfl, rfl⟩, ?_, ?_⟩
  · intro c' h
    simp only [CRCState.Update, Option.map_eq_some'] at h
    obtain ⟨r, -, rfl⟩ := h
    rfl
  · intro c' h
    simp only [CRCState.UpdateBits, Option.map_eq_some'] at h
    obtain ⟨r, -, rfl⟩ := h
    rfl

/-- C10 witness: purity of Final and engine preservation by Update at a
concrete CRC-5/USB session. -/
theorem c10_query_purity_engine_frame_witness :
    (⟨CRC5USBalgo, 31⟩ : CRCState).FinalOp.2 = ⟨CRC5USBalgo, 31⟩ :=
  (c10_query_purity_engine_frame ⟨CRC5USBalgo, 31⟩ [49] 8).1

end GoCrc
